import Mathlib

/-!
Verification of the `neural_pseudo_scan/sample_nerfie.py` render-and-extract
pipeline: point extraction from per-ray sample weights, distributed render
order preservation, per-device random-stream derivation, point-cloud
accumulation, persistence round-trip, the stepped render loop, and the
config-file rewrite side effect.

Numeric values (weights, thresholds, coordinates, colors) are embedded as
rationals; grids of shape [H, W, ...] are lists of H rows of W entries.
-/

namespace SampleNerfie

/-- A 3-vector of rationals: a sample position, an extracted point, or an
rgb color triple. -/
structure V3 where
  x : ℚ
  y : ℚ
  z : ℚ
  deriving DecidableEq, Repr, Inhabited

def V3.zero : V3 := ⟨0, 0, 0⟩

def V3.add (a b : V3) : V3 := ⟨a.x + b.x, a.y + b.y, a.z + b.z⟩

def V3.smul (c : ℚ) (a : V3) : V3 := ⟨c * a.x, c * a.y, c * a.z⟩

/-- Sum of a list of 3-vectors (the collapse of the sample axis). -/
def sumV3 (l : List V3) : V3 := l.foldr V3.add V3.zero

/-- Running cumulative sums with starting accumulator `acc`
(`jnp.cumsum` along the sample axis). -/
def cumsumFrom (acc : ℚ) : List ℚ → List ℚ
  | [] => []
  | w :: ws => (acc + w) :: cumsumFrom (acc + w) ws

/-- Cumulative sum of a weight list along the sample axis. -/
def cumsum (ws : List ℚ) : List ℚ := cumsumFrom 0 ws

/-- Modelled from the spec: the index of the sample at which the cumulative
weight first reaches or exceeds the opaqueness threshold `τ`
(`model_utils.compute_opaqueness_mask` lives in the external `nerfies`
package, not in this repository; the spec describes it as marking the sample
where the cumulative sum of the weights first reaches accumulated opacity
`τ`). Returns `ws.length` when no sample reaches the threshold. -/
def firstCross (τ : ℚ) (ws : List ℚ) : Nat :=
  (cumsum ws).findIdx (fun c => decide (τ ≤ c))

/-- Modelled from the spec: the binary opaqueness mask over the sample axis,
`1` exactly at the sample where the cumulative weight first reaches `τ`
(all zero when no sample reaches it). -/
def opaquenessMask (τ : ℚ) (ws : List ℚ) : List ℚ :=
  (List.range ws.length).map (fun i => if i = firstCross τ ws then 1 else 0)

/-- Point extraction for one ray (`jnp.sum(opaqueness_mask[..., None] *
sampled_points, axis=-2)` restricted to a single ray): the sum over samples
of `mask * position`. -/
def extractPoint (τ : ℚ) (ws : List ℚ) (ps : List V3) : V3 :=
  sumV3 (List.zipWith V3.smul (opaquenessMask τ ws) ps)

/-- Per-frame point extraction over a `[H, W, S]` grid of weights and a
`[H, W, S, 3]` grid of sample positions, flattened to `H*W` points in row
order (`points_mid.reshape(-1, 3)`). -/
def framePoints (τ : ℚ) (weights : List (List (List ℚ)))
    (positions : List (List (List V3))) : List V3 :=
  (List.zipWith (fun wrow prow => List.zipWith (extractPoint τ) wrow prow)
    weights positions).flatten

/-- Per-frame colors: the `[H, W, 3]` predicted-color grid flattened to
`H*W` color triples in row order (`pred_color.reshape(-1, 3)`), values
unchanged. -/
def frameColors (colors : List (List V3)) : List V3 := colors.flatten

/-! ### Helper lemmas about `findIdx`, `cumsum` and masked sums -/

theorem findIdx_eq_length_of_false {p : α → Bool} {l : List α}
    (h : ∀ a ∈ l, p a = false) : l.findIdx p = l.length := by
  induction l with
  | nil => rfl
  | cons b t ih =>
    rw [List.findIdx_cons, h b (List.mem_cons_self b t)]
    simp [ih fun a ha => h a (List.mem_cons_of_mem b ha)]

theorem findIdx_le_findIdx_of_imp {p q : α → Bool} (l : List α)
    (h : ∀ a, q a = true → p a = true) : l.findIdx p ≤ l.findIdx q := by
  induction l with
  | nil => simp
  | cons b t ih =>
    rw [List.findIdx_cons, List.findIdx_cons]
    cases hq : q b with
    | true => simp [h b hq]
    | false =>
      cases hp : p b with
      | true => simp
      | false => simpa using ih

theorem cumsumFrom_length (ws : List ℚ) (acc : ℚ) :
    (cumsumFrom acc ws).length = ws.length := by
  induction ws generalizing acc with
  | nil => rfl
  | cons w t ih => simp [cumsumFrom, ih]

theorem mem_zipWith {f : α → β → γ} {l1 : List α} {l2 : List β} {c : γ}
    (h : c ∈ List.zipWith f l1 l2) : ∃ a b, a ∈ l1 ∧ b ∈ l2 ∧ c = f a b := by
  induction l1 generalizing l2 with
  | nil => simp at h
  | cons a t ih =>
    cases l2 with
    | nil => simp at h
    | cons b t2 =>
      rw [List.zipWith_cons_cons] at h
      rcases List.mem_cons.mp h with h1 | h2
      · exact ⟨a, b, List.mem_cons_self a t, List.mem_cons_self b t2, h1⟩
      · rcases ih h2 with ⟨a2, b2, ha, hb, rfl⟩
        exact ⟨a2, b2, List.mem_cons_of_mem a ha, List.mem_cons_of_mem b hb, rfl⟩

theorem cumsumFrom_zero_weights {ws : List ℚ} (h : ∀ w ∈ ws, w = 0)
    (acc : ℚ) : ∀ c ∈ cumsumFrom acc ws, c = acc := by
  induction ws generalizing acc with
  | nil => intro c hc; cases hc
  | cons w t ih =>
    intro c hc
    rw [cumsumFrom] at hc
    have hw : w = 0 := h w (List.mem_cons_self w t)
    rcases List.mem_cons.mp hc with h1 | h2
    · rw [h1, hw, add_zero]
    · have := ih (fun a ha => h a (List.mem_cons_of_mem w ha)) (acc + w) c h2
      rw [this, hw, add_zero]

theorem sumV3_zeros {l : List V3} (h : ∀ v ∈ l, v = V3.zero) :
    sumV3 l = V3.zero := by
  induction l with
  | nil => rfl
  | cons v t ih =>
    rw [sumV3, List.foldr_cons, h v (List.mem_cons_self v t)]
    rw [sumV3] at ih
    rw [ih fun a ha => h a (List.mem_cons_of_mem v ha)]
    simp [V3.add, V3.zero]

theorem smul_zero_left (p : V3) : V3.smul 0 p = V3.zero := by
  simp [V3.smul, V3.zero]

/-! ### C4: degenerate ray -/

/-- C4: a ray whose per-sample weights are all zero yields the zero point
(0, 0, 0): the opaqueness mask never activates, so the masked sum over the
sample positions is exactly zero. -/
theorem degenerate_ray_zero_point (ws : List ℚ) (ps : List V3)
    (h : ∀ w ∈ ws, w = 0) : extractPoint (1/2) ws ps = V3.zero := by
  have hcum : ∀ c ∈ cumsum ws, c = 0 := cumsumFrom_zero_weights h 0
  have hidx : firstCross (1/2) ws = ws.length := by
    rw [firstCross]
    rw [← cumsumFrom_length ws 0]
    apply findIdx_eq_length_of_false
    intro c hc
    rw [hcum c hc]
    norm_num
  rw [extractPoint]
  apply sumV3_zeros
  intro v hv
  rcases mem_zipWith hv with ⟨m, p, hm, _, rfl⟩
  have hm0 : m = 0 := by
    rw [opaquenessMask] at hm
    rcases List.mem_map.mp hm with ⟨i, hi, rfl⟩
    rw [List.mem_range] at hi
    rw [hidx] at *
    exact if_neg (Nat.ne_of_lt hi)
  rw [hm0, smul_zero_left]

/-- Witness for C4 at a concrete ray. -/
theorem degenerate_ray_zero_point_witness :
    extractPoint (1/2) [0, 0, 0] [⟨1, 2, 3⟩, ⟨4, 5, 6⟩, ⟨7, 8, 9⟩] = V3.zero :=
  degenerate_ray_zero_point [0, 0, 0] [⟨1, 2, 3⟩, ⟨4, 5, 6⟩, ⟨7, 8, 9⟩]
    (by intro w hw; simpa using hw)

/-! ### C5: threshold monotonicity -/

/-- C5: for a fixed weight sequence and thresholds 0 ≤ τ₁ ≤ τ₂ ≤ 1, the
sample index at which the cumulative-weight opaqueness mask first activates
under τ₂ is at least the index at which it first activates under τ₁
(`firstCross` returns the sample count when the mask never activates). -/
theorem threshold_monotonicity (ws : List ℚ) (t1 t2 : ℚ)
    (h0 : 0 ≤ t1) (h12 : t1 ≤ t2) (h1 : t2 ≤ 1) :
    firstCross t1 ws ≤ firstCross t2 ws := by
  rw [firstCross, firstCross]
  apply findIdx_le_findIdx_of_imp
  intro c hc
  rw [decide_eq_true_iff] at hc ⊢
  exact le_trans h12 hc

/-- Witness for C5 at a concrete weight sequence and threshold pair. -/
theorem threshold_monotonicity_witness :
    firstCross (1/4) [1/3, 1/3, 1/3] ≤ firstCross (3/4) [1/3, 1/3, 1/3] :=
  threshold_monotonicity [1/3, 1/3, 1/3] (1/4) (3/4)
    (by norm_num) (by norm_num) (by norm_num)

/-! ### C1: per-frame point extraction -/

theorem flatten_length_uniform {rows : List (List α)} {W : Nat}
    (hW : ∀ r ∈ rows, r.length = W) : rows.flatten.length = rows.length * W := by
  induction rows with
  | nil => simp
  | cons r t ih =>
    simp only [List.flatten_cons, List.length_append, List.length_cons]
    rw [hW r (List.mem_cons_self r t),
      ih fun a ha => hW a (List.mem_cons_of_mem r ha)]
    ring

theorem flatten_getElem_uniform {rows : List (List α)} {W : Nat}
    (hW : ∀ r ∈ rows, r.length = W) {i j : Nat} (hi : i < rows.length)
    (hj : j < W) : rows.flatten[i * W + j]? = (rows.getD i [])[j]? := by
  induction rows generalizing i with
  | nil => simp at hi
  | cons r t ih =>
    have hr : r.length = W := hW r (List.mem_cons_self r t)
    cases i with
    | zero =>
      simp only [List.flatten_cons, Nat.zero_mul, Nat.zero_add,
        List.getD_cons_zero]
      exact List.getElem?_append_left (hr ▸ hj)
    | succ i =>
      rw [List.flatten_cons]
      have hidx : (i + 1) * W + j = r.length + (i * W + j) := by
        rw [hr]; ring
      rw [hidx, List.getElem?_append_right (Nat.le_add_right _ _),
        Nat.add_sub_cancel_left, List.getD_cons_succ]
      exact ih (fun a ha => hW a (List.mem_cons_of_mem r ha))
        (Nat.lt_of_succ_lt_succ hi)

/-- C1: per-frame Point Extraction with threshold τ: over a `[H,W,S]`
weight grid and `[H,W,S,3]` position grid, the output is a flat sequence of
`H*W` points, one per ray, where the ray at grid position `(i, j)`
contributes the sum over samples of `mask * position` for the
cumulative-weight opaqueness mask; the per-pixel predicted colors are
flattened to `H*W` color triples unchanged. -/
theorem point_extraction_frame (τ : ℚ) (H W : Nat)
    (weights : List (List (List ℚ))) (positions : List (List (List V3)))
    (colors : List (List V3))
    (hwH : weights.length = H) (hpH : positions.length = H)
    (hcH : colors.length = H)
    (hwW : ∀ r ∈ weights, r.length = W) (hpW : ∀ r ∈ positions, r.length = W)
    (hcW : ∀ r ∈ colors, r.length = W) :
    (framePoints τ weights positions).length = H * W ∧
    frameColors colors = colors.flatten ∧
    (frameColors colors).length = H * W ∧
    ∀ i j, i < H → j < W →
      (framePoints τ weights positions)[i * W + j]? =
        some (extractPoint τ ((weights.getD i []).getD j [])
          ((positions.getD i []).getD j [])) := by
  have hrowsW : ∀ r ∈ List.zipWith
      (fun wrow prow => List.zipWith (extractPoint τ) wrow prow)
      weights positions, r.length = W := by
    intro r hr
    rcases mem_zipWith hr with ⟨wr, pr, hw, hp, rfl⟩
    rw [List.length_zipWith, hwW wr hw, hpW pr hp, min_self]
  have hrowsH : (List.zipWith
      (fun wrow prow => List.zipWith (extractPoint τ) wrow prow)
      weights positions).length = H := by
    rw [List.length_zipWith, hwH, hpH, min_self]
  refine ⟨?_, rfl, ?_, ?_⟩
  · rw [framePoints, flatten_length_uniform hrowsW, hrowsH]
  · rw [frameColors, flatten_length_uniform hcW, hcH]
  · intro i j hi hj
    have hwi : i < weights.length := hwH ▸ hi
    have hpi : i < positions.length := hpH ▸ hi
    have hjw : j < weights[i].length := by
      rw [hwW _ (List.getElem_mem hwi)]; exact hj
    have hjp : j < positions[i].length := by
      rw [hpW _ (List.getElem_mem hpi)]; exact hj
    have hgw1 : weights.getD i [] = weights[i] := by
      rw [List.getD_eq_getElem?_getD, List.getElem?_eq_getElem hwi,
        Option.getD_some]
    have hgp1 : positions.getD i [] = positions[i] := by
      rw [List.getD_eq_getElem?_getD, List.getElem?_eq_getElem hpi,
        Option.getD_some]
    have hgw2 : weights[i].getD j [] = weights[i][j] := by
      rw [List.getD_eq_getElem?_getD, List.getElem?_eq_getElem hjw,
        Option.getD_some]
    have hgp2 : positions[i].getD j [] = positions[i][j] := by
      rw [List.getD_eq_getElem?_getD, List.getElem?_eq_getElem hjp,
        Option.getD_some]
    have hrow : (List.zipWith
        (fun wrow prow => List.zipWith (extractPoint τ) wrow prow)
        weights positions)[i]? =
        some (List.zipWith (extractPoint τ) weights[i] positions[i]) := by
      rw [List.getElem?_zipWith_eq_some]
      exact ⟨_, _, List.getElem?_eq_getElem hwi, List.getElem?_eq_getElem hpi,
        rfl⟩
    rw [framePoints, flatten_getElem_uniform hrowsW (hrowsH ▸ hi) hj,
      hgw1, hgp1, hgw2, hgp2, List.getD_eq_getElem?_getD, hrow,
      Option.getD_some, List.getElem?_zipWith_eq_some]
    exact ⟨_, _, List.getElem?_eq_getElem hjw, List.getElem?_eq_getElem hjp,
      rfl⟩

/-- Witness for C1 on a concrete 1x2 frame with 2 samples per ray. -/
theorem point_extraction_frame_witness :
    (framePoints (1/2) [[[1/4, 1/2], [0, 1]]]
        [[[⟨1, 0, 0⟩, ⟨2, 0, 0⟩], [⟨3, 0, 0⟩, ⟨4, 0, 0⟩]]]).length = 1 * 2 ∧
    frameColors [[⟨1, 1, 1⟩, ⟨0, 0, 1⟩]] = [[⟨1, 1, 1⟩, ⟨0, 0, 1⟩]].flatten ∧
    (frameColors [[⟨1, 1, 1⟩, ⟨0, 0, 1⟩]]).length = 1 * 2 ∧
    ∀ i j, i < 1 → j < 2 →
      (framePoints (1/2) [[[1/4, 1/2], [0, 1]]]
          [[[⟨1, 0, 0⟩, ⟨2, 0, 0⟩], [⟨3, 0, 0⟩, ⟨4, 0, 0⟩]]])[i * 2 + j]? =
        some (extractPoint (1/2)
          (([[[1/4, 1/2], [0, 1]]].getD i []).getD j [])
          (([[[⟨1, 0, 0⟩, ⟨2, 0, 0⟩], [⟨3, 0, 0⟩, ⟨4, 0, 0⟩]]].getD i
            []).getD j [])) :=
  point_extraction_frame (1/2) 1 2 [[[1/4, 1/2], [0, 1]]]
    [[[⟨1, 0, 0⟩, ⟨2, 0, 0⟩], [⟨3, 0, 0⟩, ⟨4, 0, 0⟩]]]
    [[⟨1, 1, 1⟩, ⟨0, 0, 1⟩]] rfl rfl rfl
    (by intro r hr; simp at hr; subst hr; rfl)
    (by intro r hr; simp at hr; subst hr; rfl)
    (by intro r hr; simp at hr; subst hr; rfl)

/-! ### C2: distributed render order preservation

`render_fn` is `evaluation.render_image` (external `nerfies` package)
partially applied to the pmapped model and a chunk size; the spec describes
it as: split the ray batch into chunks, pad each chunk up to a multiple of
the device count, partition the padded chunk across the devices, invoke the
model per device, gather the per-device partial outputs back in device
order, drop the padding, and concatenate the chunks in order. -/

/-- Splits a list into consecutive chunks of `c` elements (the last chunk
may be shorter); chunk size is `1` when `c = 0`. -/
def chunksOf (c : Nat) : List α → List (List α)
  | [] => []
  | x :: xs => (x :: xs.take (c - 1)) :: chunksOf c (xs.drop (c - 1))
  termination_by l => l.length
  decreasing_by simp only [List.length_drop, List.length_cons]; omega

theorem flatten_chunksOf (c : Nat) (l : List α) :
    (chunksOf c l).flatten = l := by
  have H : ∀ n (l : List α), l.length ≤ n → (chunksOf c l).flatten = l := by
    intro n
    induction n with
    | zero =>
      intro l hl
      rw [List.length_eq_zero.mp (Nat.le_zero.mp hl)]
      simp [chunksOf]
    | succ n ih =>
      intro l hl
      cases l with
      | nil => simp [chunksOf]
      | cons x xs =>
        simp only [chunksOf, List.flatten_cons]
        have hle : (xs.drop (c - 1)).length ≤ n := by
          simp only [List.length_cons] at hl
          simp only [List.length_drop]
          omega
        rw [ih (xs.drop (c - 1)) hle, List.cons_append,
          List.take_append_drop]
  exact H l.length l (le_refl _)

/-- Modelled from the spec: pad a chunk of rays with a dummy ray up to the
next multiple of the device count `d`, so it can be partitioned evenly
across the devices. -/
def padTo (d : Nat) (dummy : R) (ch : List R) : List R :=
  ch ++ List.replicate ((d - ch.length % d) % d) dummy

/-- Modelled from the spec: the per-device partitions of one padded chunk
(`d` equal shards, in device order). -/
def deviceShards (d : Nat) (dummy : R) (ch : List R) : List (List R) :=
  chunksOf ((padTo d dummy ch).length / d) (padTo d dummy ch)

/-- Modelled from the spec: render one chunk: invoke the scene model `f` on
every ray of every device shard, gather the per-device outputs back in
device order, and drop the outputs of the padding rays. -/
def processChunk (d : Nat) (dummy : R) (f : R → O) (ch : List R) : List O :=
  (((deviceShards d dummy ch).map (List.map f)).flatten).take ch.length

/-- Modelled from the spec: the full distributed render: chunk the ray
batch, render each chunk across the devices, and concatenate the chunk
outputs in order. -/
def renderDistributed (d c : Nat) (dummy : R) (f : R → O)
    (rays : List R) : List O :=
  ((chunksOf c rays).map (processChunk d dummy f)).flatten

/-- Modelled from the spec: the single-device reference render: the scene
model applied to every ray in input order. -/
def renderSingle (f : R → O) (rays : List R) : List O := rays.map f

theorem processChunk_eq_map (d : Nat) (dummy : R) (f : R → O)
    (ch : List R) : processChunk d dummy f ch = ch.map f := by
  rw [processChunk, deviceShards, ← List.map_flatten, flatten_chunksOf,
    padTo, List.map_append, List.take_append_of_le_length (by simp),
    List.take_of_length_le (by simp)]

/-- C2: rendering a ray batch partitioned across `d` devices, with any
internal chunk size, and gathering the per-device partial outputs yields
exactly the per-ray model outputs in the original input order — the same
result as the single-device render; neither chunk boundaries nor the device
count affect output values or order. -/
theorem distributed_render_order_preservation (d c : Nat) (dummy : R)
    (f : R → O) (rays : List R) (hd : 0 < d) (hdiv : d ∣ rays.length) :
    renderDistributed d c dummy f rays = renderSingle f rays := by
  rw [renderDistributed, renderSingle]
  have h : (chunksOf c rays).map (processChunk d dummy f) =
      (chunksOf c rays).map (List.map f) := by
    apply List.map_congr_left
    intro ch _
    exact processChunk_eq_map d dummy f ch
  rw [h, ← List.map_flatten, flatten_chunksOf]

/-- Witness for C2: 6 rays across 2 devices with chunk size 4. -/
theorem distributed_render_order_preservation_witness :
    renderDistributed 2 4 0 (fun r => r + 10) [1, 2, 3, 4, 5, 6] =
      renderSingle (fun r => r + 10) [1, 2, 3, 4, 5, 6] :=
  distributed_render_order_preservation 2 4 0 (fun r => r + 10)
    [1, 2, 3, 4, 5, 6] (by decide) (by decide)

/-! ### C3: per-device random-stream derivation

The loop passes the base seed `rng` to `render_fn` for every frame; the
derivation of the two per-device key lists happens inside
`evaluation.render_image` (external `nerfies` package), once per frame,
before the devices are dispatched. -/

/-- Modelled from the spec: one derived substream of a seed — `split` is an
explicit deterministic splitting function, injective in the substream index
and never returning the seed itself. -/
def mixSeed (s i : Nat) : Nat := s * 4294967296 + i + 1

/-- Modelled from the spec: `split(seed, n) -> n independent substreams`. -/
def splitSeed (s n : Nat) : List Nat := (List.range n).map (mixSeed s)

/-- Modelled from the spec: the two per-device random streams derived from
the frame's base seed via the deterministic split, once per frame before
dispatch (streams `coarse` and `fine`). -/
def deriveFrameKeys (rng d : Nat) : List Nat × List Nat :=
  (splitSeed (mixSeed rng 1) d, splitSeed (mixSeed rng 2) d)

/-- Modelled from the spec: the per-device scene-model invocations
dispatched for one frame: device `i` receives the `i`-th derived key of each
stream together with its ray shard. -/
def frameDispatch (rng d : Nat) (shards : List R) : List (Nat × Nat × R) :=
  List.zipWith (fun ks sh => (ks.1, ks.2, sh))
    (List.zip (deriveFrameKeys rng d).1 (deriveFrameKeys rng d).2) shards

theorem mixSeed_inj {a b i j : Nat} (hi : i < 4294967296)
    (hj : j < 4294967296) (h : mixSeed a i = mixSeed b j) : a = b ∧ i = j := by
  rw [mixSeed, mixSeed] at h
  omega

theorem lt_mixSeed (s i : Nat) : s < mixSeed s i := by
  rw [mixSeed]
  have : s ≤ s * 4294967296 := Nat.le_mul_of_pos_right s (by norm_num)
  omega

theorem splitSeed_nodup (s n : Nat) (hn : n ≤ 4294967296) :
    (splitSeed s n).Nodup := by
  rw [splitSeed]
  apply List.Nodup.map_on _ (List.nodup_range n)
  intro x hx y hy hxy
  rw [List.mem_range] at hx hy
  exact (mixSeed_inj (lt_of_lt_of_le hx hn) (lt_of_lt_of_le hy hn) hxy).2

theorem mem_splitSeed {k s n : Nat} (h : k ∈ splitSeed s n) :
    ∃ i, i < n ∧ k = mixSeed s i := by
  rw [splitSeed] at h
  rcases List.mem_map.mp h with ⟨i, hi, rfl⟩
  exact ⟨i, List.mem_range.mp hi, rfl⟩

/-- C3: the two per-device random streams for a frame are derived from the
base seed by the deterministic split: each stream has one key per device,
the keys of a stream are pairwise distinct, the two streams are disjoint,
no derived key equals the base seed, and every per-device scene-model
invocation receives derived keys (never the base seed) from the two
streams. -/
theorem per_device_stream_derivation (rng d : Nat) (shards : List R)
    (hd : 0 < d) (hcap : d ≤ 4294967296) :
    (deriveFrameKeys rng d).1.length = d ∧
    (deriveFrameKeys rng d).2.length = d ∧
    (deriveFrameKeys rng d).1.Nodup ∧
    (deriveFrameKeys rng d).2.Nodup ∧
    (∀ k ∈ (deriveFrameKeys rng d).1, k ∉ (deriveFrameKeys rng d).2) ∧
    (∀ k ∈ (deriveFrameKeys rng d).1, k ≠ rng) ∧
    (∀ k ∈ (deriveFrameKeys rng d).2, k ≠ rng) ∧
    (∀ t ∈ frameDispatch rng d shards,
      t.1 ∈ (deriveFrameKeys rng d).1 ∧ t.2.1 ∈ (deriveFrameKeys rng d).2 ∧
      t.1 ≠ rng ∧ t.2.1 ≠ rng) := by
  have hne1 : ∀ k ∈ (deriveFrameKeys rng d).1, k ≠ rng := by
    intro k hk
    rcases mem_splitSeed hk with ⟨i, _, rfl⟩
    have h1 := lt_mixSeed rng 1
    have h2 := lt_mixSeed (mixSeed rng 1) i
    omega
  have hne2 : ∀ k ∈ (deriveFrameKeys rng d).2, k ≠ rng := by
    intro k hk
    rcases mem_splitSeed hk with ⟨i, _, rfl⟩
    have h1 := lt_mixSeed rng 2
    have h2 := lt_mixSeed (mixSeed rng 2) i
    omega
  have hdisj : ∀ k ∈ (deriveFrameKeys rng d).1,
      k ∉ (deriveFrameKeys rng d).2 := by
    intro k hk1 hk2
    rcases mem_splitSeed hk1 with ⟨i, hi, rfl⟩
    rcases mem_splitSeed hk2 with ⟨j, hj, hij⟩
    have hbase : mixSeed rng 1 = mixSeed rng 2 :=
      (mixSeed_inj (lt_of_lt_of_le hi hcap) (lt_of_lt_of_le hj hcap) hij).1
    have := (mixSeed_inj (by norm_num) (by norm_num) hbase).2
    omega
  refine ⟨by simp [deriveFrameKeys, splitSeed], by
    simp [deriveFrameKeys, splitSeed], splitSeed_nodup _ d hcap,
    splitSeed_nodup _ d hcap, hdisj, hne1, hne2, ?_⟩
  intro t ht
  rcases mem_zipWith ht with ⟨ks, sh, hks, _, rfl⟩
  have hmem := List.of_mem_zip hks
  exact ⟨hmem.1, hmem.2, hne1 ks.1 hmem.1, hne2 ks.2 hmem.2⟩

/-- Witness for C3 with 2 devices and a concrete base seed. -/
theorem per_device_stream_derivation_witness :
    (deriveFrameKeys 7 2).1.length = 2 ∧
    (deriveFrameKeys 7 2).2.length = 2 ∧
    (deriveFrameKeys 7 2).1.Nodup ∧
    (deriveFrameKeys 7 2).2.Nodup ∧
    (∀ k ∈ (deriveFrameKeys 7 2).1, k ∉ (deriveFrameKeys 7 2).2) ∧
    (∀ k ∈ (deriveFrameKeys 7 2).1, k ≠ 7) ∧
    (∀ k ∈ (deriveFrameKeys 7 2).2, k ≠ 7) ∧
    (∀ t ∈ frameDispatch 7 2 [100, 200],
      t.1 ∈ (deriveFrameKeys 7 2).1 ∧ t.2.1 ∈ (deriveFrameKeys 7 2).2 ∧
      t.1 ≠ 7 ∧ t.2.1 ≠ 7) :=
  per_device_stream_derivation 7 2 [100, 200] (by decide) (by norm_num)

/-! ### C6: point-cloud accumulator -/

/-- The aggregated point cloud: parallel vertex and color sequences. -/
structure PointCloud where
  verts : List V3
  rgb : List V3
  deriving DecidableEq, Repr

/-- The accumulator behind `point_cloud_xyz` / `point_cloud_rgb`: the
per-frame chunks appended so far, in append order. -/
structure Accumulator where
  xyz : List (List V3)
  rgb : List (List V3)
  deriving DecidableEq, Repr

def Accumulator.empty : Accumulator := ⟨[], []⟩

/-- `point_cloud_xyz.append(...)` paired with `point_cloud_rgb.append(...)`
for one frame. -/
def Accumulator.append (a : Accumulator) (points colors : List V3) :
    Accumulator :=
  ⟨a.xyz ++ [points], a.rgb ++ [colors]⟩

/-- `np.concatenate(point_cloud_xyz)` / `np.concatenate(point_cloud_rgb)`:
the finalized point cloud is the concatenation of the chunks in append
order. -/
def Accumulator.finalize (a : Accumulator) : PointCloud :=
  ⟨a.xyz.flatten, a.rgb.flatten⟩

theorem foldl_append_eq {β : Type} (g h : β → List V3) (l : List β)
    (a : Accumulator) :
    l.foldl (fun acc x => acc.append (g x) (h x)) a =
      ⟨a.xyz ++ l.map g, a.rgb ++ l.map h⟩ := by
  induction l generalizing a with
  | nil => simp [Accumulator.append]
  | cons x t ih =>
    rw [List.foldl_cons, ih]
    simp [Accumulator.append]

theorem sum_const_of_mem {β : Type} {l : List β} {f : β → Nat} {k : Nat}
    (h : ∀ x ∈ l, f x = k) : (l.map f).sum = l.length * k := by
  induction l with
  | nil => simp
  | cons x t ih =>
    simp only [List.map_cons, List.sum_cons, List.length_cons]
    rw [h x (List.mem_cons_self x t),
      ih fun a ha => h a (List.mem_cons_of_mem x ha)]
    ring

/-- C6: appending chunk pairs `(p1,c1), ..., (pk,ck)` of equal lengths and
finalizing yields exactly the concatenation `p1++...++pk` and
`c1++...++ck` in append order, with no deduplication or filtering: the
vertex count is the exact sum of the chunk lengths and equals the color
count. -/
theorem accumulator_append_order (chunks : List (List V3 × List V3))
    (hlen : ∀ pc ∈ chunks, pc.1.length = pc.2.length) :
    (chunks.foldl (fun acc pc => acc.append pc.1 pc.2)
        Accumulator.empty).finalize =
      ⟨(chunks.map Prod.fst).flatten, (chunks.map Prod.snd).flatten⟩ ∧
    ((chunks.foldl (fun acc pc => acc.append pc.1 pc.2)
        Accumulator.empty).finalize).verts.length =
      (chunks.map (fun pc => pc.1.length)).sum ∧
    ((chunks.foldl (fun acc pc => acc.append pc.1 pc.2)
        Accumulator.empty).finalize).rgb.length =
      (chunks.map (fun pc => pc.1.length)).sum := by
  have hfold := foldl_append_eq Prod.fst Prod.snd chunks Accumulator.empty
  rw [hfold]
  refine ⟨by simp [Accumulator.finalize, Accumulator.empty], ?_, ?_⟩
  · simp only [Accumulator.finalize, Accumulator.empty, List.nil_append,
      List.length_flatten, List.map_map]
    rfl
  · simp only [Accumulator.finalize, Accumulator.empty, List.nil_append,
      List.length_flatten, List.map_map]
    congr 1
    apply List.map_congr_left
    intro pc hpc
    exact (hlen pc hpc).symm

/-- Witness for C6 on two concrete chunk pairs. -/
theorem accumulator_append_order_witness :
    ([(([⟨1, 1, 1⟩], [⟨9, 9, 9⟩]) : List V3 × List V3),
        ([⟨2, 2, 2⟩, ⟨3, 3, 3⟩], [⟨8, 8, 8⟩, ⟨7, 7, 7⟩])].foldl
        (fun acc pc => acc.append pc.1 pc.2) Accumulator.empty).finalize =
      ⟨([(([⟨1, 1, 1⟩], [⟨9, 9, 9⟩]) : List V3 × List V3),
          ([⟨2, 2, 2⟩, ⟨3, 3, 3⟩], [⟨8, 8, 8⟩, ⟨7, 7, 7⟩])].map
          Prod.fst).flatten,
        ([(([⟨1, 1, 1⟩], [⟨9, 9, 9⟩]) : List V3 × List V3),
          ([⟨2, 2, 2⟩, ⟨3, 3, 3⟩], [⟨8, 8, 8⟩, ⟨7, 7, 7⟩])].map
          Prod.snd).flatten⟩ ∧
    (([(([⟨1, 1, 1⟩], [⟨9, 9, 9⟩]) : List V3 × List V3),
        ([⟨2, 2, 2⟩, ⟨3, 3, 3⟩], [⟨8, 8, 8⟩, ⟨7, 7, 7⟩])].foldl
        (fun acc pc => acc.append pc.1 pc.2)
        Accumulator.empty).finalize).verts.length =
      ([(([⟨1, 1, 1⟩], [⟨9, 9, 9⟩]) : List V3 × List V3),
        ([⟨2, 2, 2⟩, ⟨3, 3, 3⟩], [⟨8, 8, 8⟩, ⟨7, 7, 7⟩])].map
        (fun pc => pc.1.length)).sum ∧
    (([(([⟨1, 1, 1⟩], [⟨9, 9, 9⟩]) : List V3 × List V3),
        ([⟨2, 2, 2⟩, ⟨3, 3, 3⟩], [⟨8, 8, 8⟩, ⟨7, 7, 7⟩])].foldl
        (fun acc pc => acc.append pc.1 pc.2)
        Accumulator.empty).finalize).rgb.length =
      ([(([⟨1, 1, 1⟩], [⟨9, 9, 9⟩]) : List V3 × List V3),
        ([⟨2, 2, 2⟩, ⟨3, 3, 3⟩], [⟨8, 8, 8⟩, ⟨7, 7, 7⟩])].map
        (fun pc => pc.1.length)).sum :=
  accumulator_append_order
    [(([⟨1, 1, 1⟩], [⟨9, 9, 9⟩]) : List V3 × List V3),
      ([⟨2, 2, 2⟩, ⟨3, 3, 3⟩], [⟨8, 8, 8⟩, ⟨7, 7, 7⟩])]
    (by intro pc hpc; simp at hpc; rcases hpc with h | h <;> subst h <;> rfl)

/-! ### C7 and C9: persistence adapter

`np.save` writes the dict `{verts, rgb}` as one tagged container;
`np.load(...).item()` followed by `["verts"]` / `["rgb"]` reads it back,
failing when an expected key is absent (the spec names this failure
`CorruptArtifactError`). -/

inductive PersistError where
  | corruptArtifact
  deriving DecidableEq, Repr

/-- The tagged-array container: keys mapped to arrays of triples. -/
abbrev Container := List (String × List V3)

def lookupKey (k : String) : Container → Option (List V3)
  | [] => none
  | (k2, v) :: t => if k = k2 then some v else lookupKey k t

/-- Serialization of a point cloud into the tagged container
(`np.save(f, {"verts": ..., "rgb": ...})`). -/
def serializePointCloud (pc : PointCloud) : Container :=
  [("verts", pc.verts), ("rgb", pc.rgb)]

/-- Deserialization from the tagged container: fails with
`CorruptArtifactError` when an expected key is absent. -/
def deserializePointCloud (c : Container) : Except PersistError PointCloud :=
  match lookupKey "verts" c with
  | none => .error .corruptArtifact
  | some v =>
    match lookupKey "rgb" c with
    | none => .error .corruptArtifact
    | some r => .ok ⟨v, r⟩

/-- The artifact store: container files by path. -/
abbrev ArtifactStore := List (String × Container)

def lookupPath (p : String) : ArtifactStore → Option Container
  | [] => none
  | (p2, c) :: t => if p = p2 then some c else lookupPath p t

/-- `write(path, pointcloud)`: serialize and store at the path. -/
def writePointCloud (path : String) (pc : PointCloud)
    (store : ArtifactStore) : ArtifactStore :=
  (path, serializePointCloud pc) :: store

/-- `read(path)`: load the container at the path and deserialize it. -/
def readPointCloud (path : String) (store : ArtifactStore) :
    Except PersistError PointCloud :=
  match lookupPath path store with
  | none => .error .corruptArtifact
  | some c => deserializePointCloud c

/-- C7: round-trip persistence: reading back a container just written for
any point cloud — verts/rgb of any length, the empty cloud included —
returns exactly that point cloud. -/
theorem persistence_round_trip (path : String) (pc : PointCloud)
    (store : ArtifactStore) :
    readPointCloud path (writePointCloud path pc store) = .ok pc := by
  rw [readPointCloud, writePointCloud]
  have hp : lookupPath path ((path, serializePointCloud pc) :: store) =
      some (serializePointCloud pc) := by
    rw [lookupPath, if_pos rfl]
  rw [hp]
  simp [deserializePointCloud, serializePointCloud, lookupKey]

/-- C9: deserialization fails with `CorruptArtifactError` exactly when one
of the expected keys `verts`, `rgb` is absent from the container. -/
theorem read_corrupt_artifact (c : Container) :
    deserializePointCloud c = .error PersistError.corruptArtifact ↔
      lookupKey "verts" c = none ∨ lookupKey "rgb" c = none := by
  cases hv : lookupKey "verts" c with
  | none => simp [deserializePointCloud, hv]
  | some v =>
    cases hr : lookupKey "rgb" c with
    | none => simp [deserializePointCloud, hv, hr]
    | some r => simp [deserializePointCloud, hv, hr]

/-! ### C8: the stepped render loop -/

/-- The rendered data of one camera frame: per-ray sample weights `[H,W,S]`,
sample positions `[H,W,S,3]` and predicted colors `[H,W,3]`. -/
structure Frame where
  weights : List (List (List ℚ))
  positions : List (List (List V3))
  colors : List (List V3)
  deriving Repr

/-- Uniform `[H, W]` leading shape of a frame's rendered grids. -/
def Frame.wellShaped (fr : Frame) (H W : Nat) : Prop :=
  fr.weights.length = H ∧ (∀ r ∈ fr.weights, r.length = W) ∧
  fr.positions.length = H ∧ (∀ r ∈ fr.positions, r.length = W) ∧
  fr.colors.length = H ∧ (∀ r ∈ fr.colors, r.length = W)

/-- The camera indices processed by `range(0, len(test_cameras),
frame_step)`: the multiples of the step below the camera count, in
increasing order. -/
def processedIndices (s n : Nat) : List Nat :=
  (List.range ((n + s - 1) / s)).map (fun m => m * s)

/-- The render loop: for each processed camera index, extract the frame's
points and colors and append them to the accumulator. -/
def renderLoop (τ : ℚ) (cams : List Frame) (s : Nat) : Accumulator :=
  (processedIndices s cams.length).foldl
    (fun acc i =>
      acc.append
        (framePoints τ (cams.getD i ⟨[], [], []⟩).weights
          (cams.getD i ⟨[], [], []⟩).positions)
        (frameColors (cams.getD i ⟨[], [], []⟩).colors))
    Accumulator.empty

theorem framePoints_length (τ : ℚ) (H W : Nat)
    (weights : List (List (List ℚ))) (positions : List (List (List V3)))
    (hwH : weights.length = H) (hpH : positions.length = H)
    (hwW : ∀ r ∈ weights, r.length = W)
    (hpW : ∀ r ∈ positions, r.length = W) :
    (framePoints τ weights positions).length = H * W := by
  have hrowsW : ∀ r ∈ List.zipWith
      (fun wrow prow => List.zipWith (extractPoint τ) wrow prow)
      weights positions, r.length = W := by
    intro r hr
    rcases mem_zipWith hr with ⟨wr, pr, hw, hp, rfl⟩
    rw [List.length_zipWith, hwW wr hw, hpW pr hp, min_self]
  rw [framePoints, flatten_length_uniform hrowsW, List.length_zipWith,
    hwH, hpH, min_self]

theorem mem_processedIndices {s n k : Nat} (hs : 0 < s) :
    k ∈ processedIndices s n ↔ s ∣ k ∧ k < n := by
  have key : ∀ m : Nat, m < (n + s - 1) / s ↔ m * s < n := by
    intro m
    have h1 : m < (n + s - 1) / s ↔ m + 1 ≤ (n + s - 1) / s :=
      Iff.rfl
    have h2 : m + 1 ≤ (n + s - 1) / s ↔ (m + 1) * s ≤ n + s - 1 :=
      Nat.le_div_iff_mul_le hs
    have h3 : (m + 1) * s = m * s + s := by ring
    rw [h1, h2, h3]
    omega
  rw [processedIndices]
  simp only [List.mem_map, List.mem_range]
  constructor
  · rintro ⟨m, hm, rfl⟩
    exact ⟨Dvd.intro m (Nat.mul_comm m s ▸ rfl), (key m).mp hm⟩
  · rintro ⟨⟨m, rfl⟩, hk⟩
    exact ⟨m, (key m).mpr (by rw [Nat.mul_comm] at hk; exact hk),
      Nat.mul_comm m s⟩

/-- C8: with frame step `s ≥ 1` over `n` cameras, the loop processes
exactly the camera indices `0, s, 2s, ...` below `n`, in that order (the
`m`-th processed index is `m*s`); each processed camera contributes exactly
one appended chunk, and when all frames share leading shape `[H, W]`, each
chunk holds `H*W` points so the final cloud holds `count * H * W` points.
In particular, with 3 cameras, step 1 processes indices `[0, 1, 2]` and
step 2 processes exactly `[0, 2]`. -/
theorem render_loop_stepped (τ : ℚ) (cams : List Frame) (s H W : Nat)
    (hs : 0 < s) (hshape : ∀ fr ∈ cams, fr.wellShaped H W) :
    (∀ k, k ∈ processedIndices s cams.length ↔ s ∣ k ∧ k < cams.length) ∧
    (∀ m, m < ((cams.length + s - 1) / s) →
      (processedIndices s cams.length)[m]? = some (m * s)) ∧
    (renderLoop τ cams s).xyz =
      (processedIndices s cams.length).map
        (fun i => framePoints τ (cams.getD i ⟨[], [], []⟩).weights
          (cams.getD i ⟨[], [], []⟩).positions) ∧
    (renderLoop τ cams s).xyz.length =
      (processedIndices s cams.length).length ∧
    ((renderLoop τ cams s).finalize).verts.length =
      (processedIndices s cams.length).length * (H * W) ∧
    processedIndices 1 3 = [0, 1, 2] ∧
    processedIndices 2 3 = [0, 2] := by
  have hfold := foldl_append_eq
    (fun i => framePoints τ (cams.getD i ⟨[], [], []⟩).weights
      (cams.getD i ⟨[], [], []⟩).positions)
    (fun i => frameColors (cams.getD i ⟨[], [], []⟩).colors)
    (processedIndices s cams.length) Accumulator.empty
  have hxyz : (renderLoop τ cams s).xyz =
      (processedIndices s cams.length).map
        (fun i => framePoints τ (cams.getD i ⟨[], [], []⟩).weights
          (cams.getD i ⟨[], [], []⟩).positions) := by
    rw [renderLoop, hfold]
    simp [Accumulator.empty]
  refine ⟨fun k => mem_processedIndices hs, ?_, hxyz, ?_, ?_, by decide,
    by decide⟩
  · intro m hm
    rw [processedIndices, List.getElem?_map, List.getElem?_range hm]
    rfl
  · rw [hxyz, List.length_map]
  · rw [Accumulator.finalize, hxyz, List.length_flatten, List.map_map]
    apply sum_const_of_mem
    intro i hi
    have hin : i < cams.length := ((mem_processedIndices hs).mp hi).2
    have hfr : cams.getD i ⟨[], [], []⟩ = cams[i] := by
      rw [List.getD_eq_getElem?_getD, List.getElem?_eq_getElem hin,
        Option.getD_some]
    have hws := hshape cams[i] (List.getElem_mem hin)
    rcases hws with ⟨h1, h2, h3, h4, _, _⟩
    simp only [Function.comp]
    rw [hfr]
    exact framePoints_length τ H W _ _ h1 h3 h2 h4

/-- Witness for C8: 3 concrete 1x1 cameras with frame step 2. -/
theorem render_loop_stepped_witness :
    (∀ k, k ∈ processedIndices 2
        ([⟨[[[1]]], [[[⟨1, 1, 1⟩]]], [[⟨1, 0, 0⟩]]⟩,
          ⟨[[[1]]], [[[⟨2, 2, 2⟩]]], [[⟨0, 1, 0⟩]]⟩,
          ⟨[[[1]]], [[[⟨3, 3, 3⟩]]], [[⟨0, 0, 1⟩]]⟩] : List Frame).length ↔
      2 ∣ k ∧ k <
        ([⟨[[[1]]], [[[⟨1, 1, 1⟩]]], [[⟨1, 0, 0⟩]]⟩,
          ⟨[[[1]]], [[[⟨2, 2, 2⟩]]], [[⟨0, 1, 0⟩]]⟩,
          ⟨[[[1]]], [[[⟨3, 3, 3⟩]]], [[⟨0, 0, 1⟩]]⟩] : List Frame).length) ∧
    (∀ m, m < ((([⟨[[[1]]], [[[⟨1, 1, 1⟩]]], [[⟨1, 0, 0⟩]]⟩,
          ⟨[[[1]]], [[[⟨2, 2, 2⟩]]], [[⟨0, 1, 0⟩]]⟩,
          ⟨[[[1]]], [[[⟨3, 3, 3⟩]]], [[⟨0, 0, 1⟩]]⟩] :
          List Frame).length + 2 - 1) / 2) →
      (processedIndices 2
        ([⟨[[[1]]], [[[⟨1, 1, 1⟩]]], [[⟨1, 0, 0⟩]]⟩,
          ⟨[[[1]]], [[[⟨2, 2, 2⟩]]], [[⟨0, 1, 0⟩]]⟩,
          ⟨[[[1]]], [[[⟨3, 3, 3⟩]]], [[⟨0, 0, 1⟩]]⟩] :
          List Frame).length)[m]? = some (m * 2)) ∧
    (renderLoop (1/2)
        ([⟨[[[1]]], [[[⟨1, 1, 1⟩]]], [[⟨1, 0, 0⟩]]⟩,
          ⟨[[[1]]], [[[⟨2, 2, 2⟩]]], [[⟨0, 1, 0⟩]]⟩,
          ⟨[[[1]]], [[[⟨3, 3, 3⟩]]], [[⟨0, 0, 1⟩]]⟩] : List Frame) 2).xyz =
      (processedIndices 2
        ([⟨[[[1]]], [[[⟨1, 1, 1⟩]]], [[⟨1, 0, 0⟩]]⟩,
          ⟨[[[1]]], [[[⟨2, 2, 2⟩]]], [[⟨0, 1, 0⟩]]⟩,
          ⟨[[[1]]], [[[⟨3, 3, 3⟩]]], [[⟨0, 0, 1⟩]]⟩] :
          List Frame).length).map
        (fun i => framePoints (1/2)
          ((([⟨[[[1]]], [[[⟨1, 1, 1⟩]]], [[⟨1, 0, 0⟩]]⟩,
            ⟨[[[1]]], [[[⟨2, 2, 2⟩]]], [[⟨0, 1, 0⟩]]⟩,
            ⟨[[[1]]], [[[⟨3, 3, 3⟩]]], [[⟨0, 0, 1⟩]]⟩] :
            List Frame).getD i ⟨[], [], []⟩).weights)
          ((([⟨[[[1]]], [[[⟨1, 1, 1⟩]]], [[⟨1, 0, 0⟩]]⟩,
            ⟨[[[1]]], [[[⟨2, 2, 2⟩]]], [[⟨0, 1, 0⟩]]⟩,
            ⟨[[[1]]], [[[⟨3, 3, 3⟩]]], [[⟨0, 0, 1⟩]]⟩] :
            List Frame).getD i ⟨[], [], []⟩).positions)) ∧
    (renderLoop (1/2)
        ([⟨[[[1]]], [[[⟨1, 1, 1⟩]]], [[⟨1, 0, 0⟩]]⟩,
          ⟨[[[1]]], [[[⟨2, 2, 2⟩]]], [[⟨0, 1, 0⟩]]⟩,
          ⟨[[[1]]], [[[⟨3, 3, 3⟩]]], [[⟨0, 0, 1⟩]]⟩] :
          List Frame) 2).xyz.length =
      (processedIndices 2
        ([⟨[[[1]]], [[[⟨1, 1, 1⟩]]], [[⟨1, 0, 0⟩]]⟩,
          ⟨[[[1]]], [[[⟨2, 2, 2⟩]]], [[⟨0, 1, 0⟩]]⟩,
          ⟨[[[1]]], [[[⟨3, 3, 3⟩]]], [[⟨0, 0, 1⟩]]⟩] :
          List Frame).length).length ∧
    ((renderLoop (1/2)
        ([⟨[[[1]]], [[[⟨1, 1, 1⟩]]], [[⟨1, 0, 0⟩]]⟩,
          ⟨[[[1]]], [[[⟨2, 2, 2⟩]]], [[⟨0, 1, 0⟩]]⟩,
          ⟨[[[1]]], [[[⟨3, 3, 3⟩]]], [[⟨0, 0, 1⟩]]⟩] :
          List Frame) 2).finalize).verts.length =
      (processedIndices 2
        ([⟨[[[1]]], [[[⟨1, 1, 1⟩]]], [[⟨1, 0, 0⟩]]⟩,
          ⟨[[[1]]], [[[⟨2, 2, 2⟩]]], [[⟨0, 1, 0⟩]]⟩,
          ⟨[[[1]]], [[[⟨3, 3, 3⟩]]], [[⟨0, 0, 1⟩]]⟩] :
          List Frame).length).length * (1 * 1) ∧
    processedIndices 1 3 = [0, 1, 2] ∧
    processedIndices 2 3 = [0, 2] :=
  render_loop_stepped (1/2)
    ([⟨[[[1]]], [[[⟨1, 1, 1⟩]]], [[⟨1, 0, 0⟩]]⟩,
      ⟨[[[1]]], [[[⟨2, 2, 2⟩]]], [[⟨0, 1, 0⟩]]⟩,
      ⟨[[[1]]], [[[⟨3, 3, 3⟩]]], [[⟨0, 0, 1⟩]]⟩] : List Frame) 2 1 1
    (by decide)
    (by
      intro fr hfr
      simp at hfr
      rcases hfr with h | h | h <;> subst h <;>
        exact ⟨rfl, by intro r hr; simp at hr; subst hr; rfl, rfl,
          by intro r hr; simp at hr; subst hr; rfl, rfl,
          by intro r hr; simp at hr; subst hr; rfl⟩)

/-! ### C10: the config.gin read-then-rewrite side effect -/

/-- A file-system operation performed by the pipeline. -/
inductive FsOp where
  | readOp (path : String)
  | writeOp (path content : String)
  deriving DecidableEq, Repr

/-- File contents by path. -/
abbrev FileSys := List (String × String)

def readFileAt (p : String) : FileSys → Option String
  | [] => none
  | (p2, s) :: t => if p = p2 then some s else readFileAt p t

def writeFileAt (p s : String) (fs : FileSys) : FileSys := (p, s) :: fs

/-- The config path `train_dir/config.gin`. -/
def configPath (trainDir : String) : String := trainDir ++ "/config.gin"

/-- The start of every `sample_points` run: open `train_dir/config.gin`,
read its whole content, then immediately write the identical string back to
the same path (`gin.parse_config` between the two touches no file). Returns
the resulting file system and the operation trace, or `none` when the
config file is absent. -/
def configRewrite (trainDir : String) (fs : FileSys) :
    Option (FileSys × List FsOp) :=
  match readFileAt (configPath trainDir) fs with
  | none => none
  | some content =>
    some (writeFileAt (configPath trainDir) content fs,
      [FsOp.readOp (configPath trainDir),
        FsOp.writeOp (configPath trainDir) content])

/-- C10: when the config-rewrite step completes, the string written back is
the one read, so every path — the config file included — has the same
content after the step as before; the step nevertheless requires the config
file to be present and performs a write to the training directory (the
write is in the operation trace). -/
theorem config_rewrite_frame_effect (trainDir : String) (fs fs2 : FileSys)
    (trace : List FsOp)
    (h : configRewrite trainDir fs = some (fs2, trace)) :
    ∃ content, readFileAt (configPath trainDir) fs = some content ∧
      trace = [FsOp.readOp (configPath trainDir),
        FsOp.writeOp (configPath trainDir) content] ∧
      FsOp.writeOp (configPath trainDir) content ∈ trace ∧
      (∀ q, readFileAt q fs2 = readFileAt q fs) := by
  rw [configRewrite] at h
  cases hr : readFileAt (configPath trainDir) fs with
  | none => rw [hr] at h; exact absurd h (by simp)
  | some content =>
    rw [hr] at h
    simp only [Option.some.injEq, Prod.mk.injEq] at h
    rcases h with ⟨hfs2, htrace⟩
    refine ⟨content, rfl, htrace.symm, by rw [← htrace]; simp, ?_⟩
    intro q
    rw [← hfs2, writeFileAt, readFileAt]
    by_cases hq : q = configPath trainDir
    · rw [if_pos hq, hq, hr]
    · rw [if_neg hq]

/-- Witness for C10 on a concrete one-file file system. -/
theorem config_rewrite_frame_effect_witness :
    ∃ content,
      readFileAt (configPath "train") [("train/config.gin", "gin-config")] =
        some content ∧
      [FsOp.readOp (configPath "train"),
        FsOp.writeOp (configPath "train") "gin-config"] =
        [FsOp.readOp (configPath "train"),
          FsOp.writeOp (configPath "train") content] ∧
      FsOp.writeOp (configPath "train") content ∈
        [FsOp.readOp (configPath "train"),
          FsOp.writeOp (configPath "train") "gin-config"] ∧
      (∀ q, readFileAt q
          (writeFileAt (configPath "train") "gin-config"
            [("train/config.gin", "gin-config")]) =
        readFileAt q [("train/config.gin", "gin-config")]) :=
  config_rewrite_frame_effect "train" [("train/config.gin", "gin-config")]
    (writeFileAt (configPath "train") "gin-config"
      [("train/config.gin", "gin-config")])
    [FsOp.readOp (configPath "train"),
      FsOp.writeOp (configPath "train") "gin-config"]
    (by rfl)

end SampleNerfie
